import Mathlib

/-!
Verification development for the wood_rui repository.

This file gives a shallow embedding of the two subsystems of the
repository that the checked properties concern:

* the attribute-encoded entity model of `src/wood_rui/element.py`
  (user-string codec for thickness, neighbours, features, axes,
  radii, pair polylines, insertion vectors and joint types), and
* the group-membership indexer and hierarchy-inference engine of
  `src/wood_rui/groups.py`.

Modelling conventions:

* Python floats are modelled as rationals (`ℚ`); the code only moves
  them between `str` and `float`/`ast.literal_eval`, which round-trips
  exactly on the values considered.
* A Python string stored in a user-string slot is modelled by
  `AttrStr`: either the absent sentinel `"-"`, or the `repr` of a
  nested numeric list (a Python literal, `Lit`), or some other raw
  text (geometry JSON blobs and similar, which `ast.literal_eval`
  rejects).  `ast.literal_eval` and `float` are modelled as the
  partial inverses of this representation; a parse error (Python
  exception) is `none`.
* Python strings that undergo character-level processing (group
  names, which are split on backslashes and joined with commas) are
  modelled as `List Char` (`PyStr`).
* Python `dict`s are insertion-ordered association lists; Python
  `set`s of strings are insertion-ordered duplicate-free lists
  (CPython iteration order of a set is unspecified and
  hash-randomized; whenever a result depends on it the model fixes
  insertion order and the dependence is noted at the theorem).
* Rhino transforms applied pointwise to polylines are modelled as an
  explicit point map `T : Point3 → Point3` parameter.
-/

/-- A 3d point or vector (Rhino `Point3d` / `Vector3d`), with exact
rational coordinates. -/
abbrev Point3 : Type := ℚ × ℚ × ℚ

/-- Componentwise difference of points, as in `polyline[0] - polyline[1]`. -/
def psub (a b : Point3) : Point3 := (a.1 - b.1, a.2.1 - b.2.1, a.2.2 - b.2.2)

/-- A Rhino plane as constructed by `Rhino.Geometry.Plane(origin, x_axis, y_axis)`:
the record of the three constructor arguments derived from a marker
polyline.  (Rhino's internal orthonormalization is irrelevant to the
derivation checked here.) -/
structure Frame where
  origin : Point3
  x_axis : Point3
  y_axis : Point3
deriving DecidableEq, Repr

/-- A Python literal value as produced by `str`/`repr` of nested lists of
numbers and consumed by `ast.literal_eval`. -/
inductive Lit where
  | num (q : ℚ)
  | list (xs : List Lit)
deriving Repr

mutual

/-- Boolean equality test for `Lit`. -/
def Lit.beq : Lit → Lit → Bool
  | .num p, .num q => p == q
  | .list xs, .list ys => Lit.beqList xs ys
  | _, _ => false

/-- Boolean equality test for lists of `Lit`. -/
def Lit.beqList : List Lit → List Lit → Bool
  | [], [] => true
  | a :: as, b :: bs => Lit.beq a b && Lit.beqList as bs
  | _, _ => false

end

mutual

theorem Lit.beq_iff : ∀ a b : Lit, Lit.beq a b = true ↔ a = b
  | .num p, .num q => by simp [Lit.beq, beq_iff_eq]
  | .num _, .list _ => by simp [Lit.beq]
  | .list _, .num _ => by simp [Lit.beq]
  | .list xs, .list ys => by
      rw [show Lit.beq (.list xs) (.list ys) = Lit.beqList xs ys from rfl]
      rw [Lit.beqList_iff xs ys]
      exact ⟨fun h => by rw [h], fun h => by injection h⟩

theorem Lit.beqList_iff : ∀ xs ys : List Lit, Lit.beqList xs ys = true ↔ xs = ys
  | [], [] => by simp [Lit.beqList]
  | [], _ :: _ => by simp [Lit.beqList]
  | _ :: _, [] => by simp [Lit.beqList]
  | a :: as, b :: bs => by
      rw [show Lit.beqList (a :: as) (b :: bs) = (Lit.beq a b && Lit.beqList as bs) from rfl]
      rw [Bool.and_eq_true, Lit.beq_iff a b, Lit.beqList_iff as bs]
      constructor
      · rintro ⟨h1, h2⟩; rw [h1, h2]
      · intro h; injection h with h1 h2; exact ⟨h1, h2⟩

end

instance : DecidableEq Lit := fun a b => decidable_of_iff _ (Lit.beq_iff a b)

/-- A string held in a Rhino user-string slot: the absent sentinel `"-"`,
the repr of a Python literal, or other raw text (e.g. geometry JSON),
which `ast.literal_eval` and `float` reject. -/
inductive AttrStr where
  | dash
  | lit (v : Lit)
  | raw (s : String)
deriving DecidableEq, Repr

/-- The user-string table of one Rhino object: an insertion-ordered map
from key to stored string. -/
abbrev AttrMap : Type := List (String × AttrStr)

/-- Python `GetUserString`: first binding of the key, `None` when missing. -/
def getUserString (m : AttrMap) (k : String) : Option AttrStr :=
  (m.find? (fun kv => decide (kv.1 = k))).map (·.2)

/-- Python `SetUserString`: overwrite the (unique) binding of the key in
place, or append a new binding at the end. -/
def setUserString (m : AttrMap) (k : String) (v : AttrStr) : AttrMap :=
  match m with
  | [] => [(k, v)]
  | kv :: rest => if kv.1 = k then (k, v) :: rest else kv :: setUserString rest k v

/-- Python `float(value)` on a stored user string: succeeds exactly on
the repr of a single number; `float("-")`, `float(None)` and
`float` of a list repr or arbitrary text raise. -/
def floatOfAttr (v : Option AttrStr) : Option ℚ :=
  match v with
  | some (.lit (.num q)) => some q
  | _ => none

/-- Python `ast.literal_eval(value)` on a stored user string: succeeds
exactly on literal reprs; `"-"`, `None` and non-literal raw text raise. -/
def literalEval (v : Option AttrStr) : Option Lit :=
  match v with
  | some (.lit l) => some l
  | _ => none

/-- Render a flat list of rationals as the Python literal list holding them. -/
def numsLit (l : List ℚ) : Lit := .list (l.map .num)

/-- Element.thickness getter (element.py lines 286-289):
`float(GetUserString("thickness"))`; `none` models the exception raised
when the slot is absent, `"-"`, or not a number. -/
def thickness_read (m : AttrMap) : Option ℚ :=
  floatOfAttr (getUserString m "thickness")

/-- Element.thickness setter (element.py lines 291-296):
`SetUserString("thickness", str(value))` — always a numeric repr. -/
def thickness_write (m : AttrMap) (value : ℚ) : AttrMap :=
  setUserString m "thickness" (.lit (.num value))

/-- The thickness encoding in `Element.add_element` (element.py line 713):
`str(thickness) if thickness else "-"`; a Python float is falsy exactly
when it equals `0.0` (NaN excluded by the rational model). -/
def addElement_thickness (thickness : ℚ) : AttrStr :=
  if thickness = 0 then .dash else .lit (.num thickness)

/-- Element.plane (element.py lines 52-61): succeeds iff the marker
polyline has exactly 3 points; then origin is the middle point and the
axes are the vectors to the two end points. -/
def elementPlane (marker : List Point3) : Option Frame :=
  match marker with
  | [p0, p1, p2] => some ⟨p1, psub p0 p1, psub p2 p1⟩
  | _ => none

/-- polyline_to_plane (groups.py lines 20-26): the same derivation from
points 0,1,2 but guarded by `polyline.Count == 5` (the adjacent comment
claims the guard ensures exactly 3 points). -/
def polyline_to_plane (polyline : List Point3) : Option Frame :=
  match polyline with
  | [p0, p1, p2, _, _] => some ⟨p1, psub p0 p1, psub p2 p1⟩
  | _ => none

/-- C1. The claim reads: setting thickness to 0.0 writes a real encoded
numeric value, never the sentinel "-", and reading it back yields 0.0.
The code violates this in `Element.add_element`: its guard
`str(thickness) if thickness else "-"` stores the absent sentinel for
the valid input 0.0, after which the thickness getter raises
(`float("-")`), while the `Element.thickness` property setter does
store a numeric repr that reads back as 0. -/
theorem addElement_thickness_zero_writes_dash :
    addElement_thickness 0 = AttrStr.dash ∧
    thickness_read [("thickness", AttrStr.dash)] = none ∧
    thickness_read (thickness_write [] 0) = some 0 := by
  refine ⟨rfl, rfl, rfl⟩

/-- C2. The claim reads: frame resolution returns a frame iff the marker
has exactly 3 points, with origin = marker[1], x_axis = marker[0] -
marker[1], y_axis = marker[2] - marker[1].  `Element.plane` satisfies
this, but `polyline_to_plane` in groups.py guards with
`polyline.Count == 5` (its own comment says "Ensure it has exactly 3
points"), so a genuine 3-point marker yields the Unset sentinel and a
5-point polyline yields a frame. -/
theorem polyline_to_plane_three_points_unset :
    polyline_to_plane [(1, 0, 0), (0, 0, 0), (0, 1, 0)] = none ∧
    elementPlane [(1, 0, 0), (0, 0, 0), (0, 1, 0)] =
      some ⟨(0, 0, 0), (1, 0, 0), (0, 1, 0)⟩ ∧
    polyline_to_plane [(1, 0, 0), (0, 0, 0), (0, 1, 0), (5, 5, 5), (6, 6, 6)] =
      some ⟨(0, 0, 0), (1, 0, 0), (0, 1, 0)⟩ := by
  refine ⟨rfl, ?_, ?_⟩ <;> simp [elementPlane, polyline_to_plane, psub]

/-- Reading back what was just stored yields the stored string. -/
theorem getUserString_setUserString_self (m : AttrMap) (k : String) (v : AttrStr) :
    getUserString (setUserString m k v) k = some v := by
  induction m with
  | nil => simp [setUserString, getUserString, List.find?]
  | cons kv rest ih =>
    by_cases hk : kv.1 = k
    · simp [setUserString, hk, getUserString, List.find?]
    · simp only [setUserString, hk, if_false, getUserString, List.find?] at ih ⊢
      simp [hk, ih]

/-- Other keys are untouched by a store. -/
theorem getUserString_setUserString_other (m : AttrMap) (k k' : String) (v : AttrStr)
    (h : k' ≠ k) : getUserString (setUserString m k v) k' = getUserString m k' := by
  induction m with
  | nil => simp [setUserString, getUserString, List.find?, Ne.symm h]
  | cons kv rest ih =>
    by_cases hk : kv.1 = k
    · simp [setUserString, hk, getUserString, List.find?, Ne.symm h]
    · by_cases hk' : kv.1 = k'
      · simp [setUserString, hk, getUserString, List.find?, hk', h]
      · simp only [setUserString, hk, if_false, getUserString, List.find?] at ih ⊢
        simp [hk', ih]

/-- Does `needle` occur at the start of `hay`? -/
def startsWithSeq : List Char → List Char → Bool
  | [], _ => true
  | _ :: _, [] => false
  | a :: as, b :: bs => a = b && startsWithSeq as bs

/-- Does `needle` occur contiguously anywhere in `hay`?  Model of the
Python substring test `needle in hay`. -/
def containsSeq (needle : List Char) : List Char → Bool
  | [] => needle.isEmpty
  | b :: bs => startsWithSeq needle (b :: bs) || containsSeq needle bs

/-- Python `pat in s` on strings. -/
def strContains (s pat : String) : Bool := containsSeq pat.data s.data

/-- Element.features_count (element.py lines 125-132): the number of
user-string keys containing the substring "feature". -/
def features_count (m : AttrMap) : ℕ :=
  (m.filter (fun kv => strContains kv.1 "feature")).length

/-- Element.clear_features (element.py lines 162-171): delete every
user-string key containing the substring "feature". -/
def clear_features (m : AttrMap) : AttrMap :=
  m.filter (fun kv => !strContains kv.1 "feature")

/-- Element.features setter (element.py lines 148-160): clear all
feature keys, re-read the feature count (necessarily of the cleared
table), then store each serialized geometry blob under
`feature_{count + idx}`. -/
def set_features (m : AttrMap) (blobs : List String) : AttrMap :=
  let cleared := clear_features m
  let feature_count := features_count cleared
  blobs.enum.foldl
    (fun acc iv =>
      setUserString acc ("feature_" ++ toString (feature_count + iv.1)) (.raw iv.2))
    cleared

/-- C7 counterexample. The claim reads: setting the feature list to the
empty list leaves features_count unchanged in every attribute state.
On a state holding one feature the count drops from 1 to 0, because the
setter clears all feature keys before appending. -/
theorem set_features_empty_resets_count :
    features_count [("feature_0", AttrStr.raw "blob")] = 1 ∧
    features_count (set_features [("feature_0", AttrStr.raw "blob")] []) = 0 := by
  constructor <;> rfl

/-- C7 as amended. Setting the feature list first deletes every existing
feature key, so a set with the empty list always resets features_count
to 0 (it is unchanged only in states where it was already 0); fresh
features are appended starting at index 0, not after the prior count. -/
theorem set_features_empty_count_zero (m : AttrMap) :
    features_count (set_features m []) = 0 := by
  simp [set_features, features_count, clear_features, List.enum,
    List.filter_filter]

/-- Flatten a polyline to the coordinate list `[x,y,z,x,y,z,...]`. -/
def flatCoords (pl : List Point3) : List ℚ :=
  pl.flatMap (fun p => [p.1, p.2.1, p.2.2])

/-- The neighbours encoding in `Element.add_element` (element.py lines
625-628): `str(neighbours) if neighbours else "-"`; an empty list is
falsy and stores the sentinel. -/
def addElement_neighbours (neighbours : List ℤ) : AttrStr :=
  if neighbours = [] then .dash
  else .lit (.list (neighbours.map (fun n => .num (n : ℚ))))

/-- Element.neighbours setter (element.py lines 118-123):
`SetUserString("neighbours", str(value))` — always the list repr, even
for the empty list. -/
def neighbours_write (m : AttrMap) (value : List ℤ) : AttrMap :=
  setUserString m "neighbours" (.lit (.list (value.map (fun n => .num (n : ℚ)))))

/-- The pair_polyline encoding in `Element.add_element` (element.py lines
645-655): flatten each polyline to coordinates and store the nested
list repr, or the sentinel when no coordinates were collected. -/
def addElement_pair_polyline (pair_polyline : List (List Point3)) : AttrStr :=
  let list_coordinates := pair_polyline.map flatCoords
  if list_coordinates.length > 0 then .lit (.list (list_coordinates.map numsLit))
  else .dash

/-- C5 counterexample. The claim reads: a set operation on a
collection-valued field given an empty collection writes the empty-list
literal, never "-".  `Element.add_element` writes the sentinel "-" for
both an empty neighbours list and an empty pair_polyline list, and the
sentinel is not the empty-list literal. -/
theorem addElement_empty_collections_dash :
    addElement_neighbours [] = AttrStr.dash ∧
    addElement_pair_polyline [] = AttrStr.dash ∧
    AttrStr.dash ≠ AttrStr.lit (Lit.list []) := by
  refine ⟨rfl, rfl, fun h => by cases h⟩

/-- C5 as amended. The Element property setters do write the list
literal for every collection including the empty one, but
`Element.add_element` writes the sentinel "-" for empty neighbours and
empty pair_polyline; so "-" also marks empty collections there, and only
non-empty collections are stored as list literals. -/
theorem empty_collection_encoding :
    (∀ (m : AttrMap) (value : List ℤ),
      getUserString (neighbours_write m value) "neighbours"
        = some (.lit (.list (value.map (fun n => .num (n : ℚ)))))) ∧
    addElement_neighbours [] = AttrStr.dash ∧
    addElement_pair_polyline [] = AttrStr.dash ∧
    (∀ ns : List ℤ, ns ≠ [] →
      addElement_neighbours ns = .lit (.list (ns.map (fun n => .num (n : ℚ))))) ∧
    (∀ pls : List (List Point3), pls ≠ [] →
      addElement_pair_polyline pls = .lit (.list ((pls.map flatCoords).map numsLit))) := by
  refine ⟨fun m value => getUserString_setUserString_self m _ _, rfl, rfl, ?_, ?_⟩
  · intro ns h; simp [addElement_neighbours, h]
  · intro pls h
    simp [addElement_pair_polyline, List.length_pos, h]

/-- C5 witness for the amended statement: concrete non-empty collections
are stored as list literals and the empty ones as the sentinel. -/
theorem empty_collection_encoding_witness :
    getUserString (neighbours_write [] [3]) "neighbours"
      = some (.lit (.list [.num (3 : ℚ)])) ∧
    addElement_neighbours [3] = .lit (.list [.num (3 : ℚ)]) ∧
    addElement_pair_polyline [[(1, 2, 3)]]
      = .lit (.list [numsLit [1, 2, 3]]) := by
  refine ⟨empty_collection_encoding.1 [] [3], ?_, ?_⟩
  · exact empty_collection_encoding.2.2.2.1 [3] (by simp)
  · exact empty_collection_encoding.2.2.2.2 [[(1, 2, 3)]] (by simp)

/-- Map an option-valued function over a list, failing on the first
failure: the behaviour of a Python loop whose body may raise. -/
def mapO {α β : Type} (f : α → Option β) : List α → Option (List β)
  | [] => some []
  | a :: as =>
    match f a with
    | none => none
    | some b => (mapO f as).map (fun bs => b :: bs)

/-- A literal used as a number (Rhino point coordinate); a nested list
raises. -/
def litNum : Lit → Option ℚ
  | .num q => some q
  | .list _ => none

/-- A literal used as a flat list of numbers; `len()` of a number raises. -/
def litNums : Lit → Option (List ℚ)
  | .list xs => mapO litNum xs
  | .num _ => none

/-- The loop `for i in range(0, len(l), 3): Point3d(l[i], l[i+1], l[i+2])`:
consume coordinate triples; a trailing partial triple raises IndexError. -/
def groupXYZ : List ℚ → Option (List Point3)
  | [] => some []
  | x :: y :: z :: rest => (groupXYZ rest).map (fun ps => (x, y, z) :: ps)
  | _ => none

/-- Element.pair_polyline getter (element.py lines 173-192): parse the
stored triple-nested float list, rebuild each polyline from coordinate
triples and transform it to world space (`T` is the element's
local-to-world transform applied pointwise). `none` models any raised
exception, including `ast.literal_eval` of an absent or `"-"` slot. -/
def pair_polyline_read (T : Point3 → Point3) (m : AttrMap) :
    Option (List (List (List Point3))) :=
  match literalEval (getUserString m "pair_polyline") with
  | none => none
  | some (.num _) => none
  | some (.list list3) =>
      mapO (fun list2 =>
        match list2 with
        | .num _ => none
        | .list list1s =>
            mapO (fun list1 =>
              ((litNums list1).bind groupXYZ).map (fun ps => ps.map T)) list1s) list3

/-- Element.insertion getter (element.py lines 298-312): on the absent
slot or the sentinel `"-"` return one empty vector list per
pair_polyline entry; otherwise parse the stored flat lists into vector
triples (no transform is applied to insertion vectors). -/
def insertion_read (T : Point3 → Point3) (m : AttrMap) : Option (List (List Point3)) :=
  match getUserString m "insertion" with
  | some .dash => (pair_polyline_read T m).map (fun pp => List.replicate pp.length [])
  | none => (pair_polyline_read T m).map (fun pp => List.replicate pp.length [])
  | v =>
      match literalEval v with
      | none => none
      | some (.num _) => none
      | some (.list ls) => mapO (fun l => (litNums l).bind groupXYZ) ls

/-- Element.joint_types getter (element.py lines 327-335): on the absent
slot or the sentinel `"-"` return one empty list per pair_polyline
entry; otherwise return whatever `ast.literal_eval` parsed. -/
def joint_types_read (T : Point3 → Point3) (m : AttrMap) : Option Lit :=
  match getUserString m "joint_types" with
  | some .dash =>
      (pair_polyline_read T m).map (fun pp => Lit.list (List.replicate pp.length (.list [])))
  | none =>
      (pair_polyline_read T m).map (fun pp => Lit.list (List.replicate pp.length (.list [])))
  | v => literalEval v

/-- Element.insertion setter (element.py lines 314-325): flatten each
vector list into `coordinates`, collecting them in `list_coordinates`,
but commit `str(coordinates)` — the loop variable left over from the
LAST iteration — instead of the collected list; on an empty input the
name `coordinates` is unbound and the write raises (`none`). -/
def insertion_write (m : AttrMap) (value : List (List Point3)) : Option AttrMap :=
  match value.foldl (fun _ list_vectors => some (flatCoords list_vectors)) none with
  | none => none
  | some coordinates => some (setUserString m "insertion" (.lit (numsLit coordinates)))

/-- C8 counterexample. The claim reads: whenever the insertion (resp.
joint_types) slot is absent or `"-"`, the getter returns one empty
sequence per pair_polyline entry.  On the very attribute state that
`Element.add_element` produces for the default arguments — pair_polyline
stored as `"-"` too — both getters raise instead (`ast.literal_eval("-")`
fails inside the `len(self.pair_polyline)` default), rather than
returning any sequence. -/
theorem insertion_default_fails_without_pair_polyline :
    insertion_read id
      [("pair_polyline", AttrStr.dash), ("insertion", AttrStr.dash)] = none ∧
    joint_types_read id
      [("pair_polyline", AttrStr.dash), ("joint_types", AttrStr.dash)] = none := by
  constructor <;> rfl

/-- C8 as amended. Whenever the pair_polyline slot itself decodes
successfully, the insertion (resp. joint_types) getter on an absent or
`"-"` slot returns exactly one empty sequence per pair_polyline entry,
so its length equals the length of pair_polyline; when pair_polyline is
itself absent or `"-"` the getters fail instead of returning a default. -/
theorem insertion_default_length_matches_pair_polyline
    (T : Point3 → Point3) (m : AttrMap) (pp : List (List (List Point3)))
    (hpp : pair_polyline_read T m = some pp) :
    ((getUserString m "insertion" = some .dash ∨ getUserString m "insertion" = none) →
      insertion_read T m = some (List.replicate pp.length []) ∧
      (List.replicate pp.length ([] : List Point3)).length = pp.length) ∧
    ((getUserString m "joint_types" = some .dash ∨ getUserString m "joint_types" = none) →
      joint_types_read T m = some (.list (List.replicate pp.length (.list [])))) := by
  constructor
  · rintro (h | h) <;>
      · unfold insertion_read
        rw [h, hpp]
        simp
  · rintro (h | h) <;>
      · unfold joint_types_read
        rw [h, hpp]
        simp

/-- C8 witness: a state whose pair_polyline decodes to one entry and
whose insertion and joint_types slots are `"-"` or absent yields
one-element defaults. -/
theorem insertion_default_length_matches_pair_polyline_witness :
    insertion_read id
      [("pair_polyline", AttrStr.lit (.list [.list [numsLit [0, 0, 0, 1, 1, 1]]])),
       ("insertion", AttrStr.dash)] = some [[]] ∧
    joint_types_read id
      [("pair_polyline", AttrStr.lit (.list [.list [numsLit [0, 0, 0, 1, 1, 1]]])),
       ("insertion", AttrStr.dash)] = some (.list [.list []]) := by
  have h := insertion_default_length_matches_pair_polyline id
    [("pair_polyline", AttrStr.lit (.list [.list [numsLit [0, 0, 0, 1, 1, 1]]])),
     ("insertion", AttrStr.dash)]
    [[[(0, 0, 0), (1, 1, 1)]]] rfl
  exact ⟨(h.1 (Or.inl rfl)).1, h.2 (Or.inr rfl)⟩

/-- A loop rebinding one variable and keeping only the last binding:
folding `fun _ x => some (f x)` over a non-empty list yields `f` of the
last element. -/
theorem foldl_some_last {α β : Type} (f : α → β) :
    ∀ (l : List α) (init : Option β), l ≠ [] →
      ∃ a, l.getLast? = some a ∧ l.foldl (fun _ x => some (f x)) init = some (f a) := by
  intro l
  induction l with
  | nil => intro init h; cases h rfl
  | cons x xs ih =>
    intro init _
    cases xs with
    | nil => exact ⟨x, rfl, rfl⟩
    | cons y ys =>
      obtain ⟨a, ha, hf⟩ := ih (some (f x)) (by simp)
      refine ⟨a, ?_, ?_⟩
      · rw [List.getLast?_cons_cons]; exact ha
      · simpa [List.foldl] using hf

/-- C10. The claim reads: calling the insertion setter with two or more
vector lists commits only the flattened coordinates of the final vector
list — the leftover loop variable — not the full list of lists, and
reading insertion back then never returns what was set (the stored
value is a flat list, which the getter either rejects or decodes to the
empty list). -/
theorem insertion_setter_last_list_only
    (T : Point3 → Point3) (m : AttrMap) (value : List (List Point3))
    (h2 : 2 ≤ value.length) :
    (∃ lastl, value.getLast? = some lastl ∧
      insertion_write m value
        = some (setUserString m "insertion" (.lit (numsLit (flatCoords lastl))))) ∧
    (∀ m', insertion_write m value = some m' → insertion_read T m' ≠ some value) := by
  have hne : value ≠ [] := by
    intro h; rw [h] at h2; exact absurd h2 (by decide)
  obtain ⟨lastl, hlast, hfold⟩ := foldl_some_last flatCoords value none hne
  constructor
  · exact ⟨lastl, hlast, by unfold insertion_write; rw [hfold]⟩
  · intro m' hm'
    have hm'eq : m' = setUserString m "insertion" (.lit (numsLit (flatCoords lastl))) := by
      unfold insertion_write at hm'
      rw [hfold] at hm'
      exact (Option.some_injective _ hm').symm
    have hget : getUserString m' "insertion" = some (.lit (numsLit (flatCoords lastl))) := by
      rw [hm'eq]; exact getUserString_setUserString_self m _ _
    intro hread
    unfold insertion_read at hread
    rw [hget] at hread
    cases hc : flatCoords lastl with
    | nil =>
      rw [hc] at hread
      simp [numsLit, literalEval, mapO] at hread
      rw [hread] at h2
      exact absurd h2 (by decide)
    | cons q qs =>
      rw [hc] at hread
      simp [numsLit, literalEval, mapO, litNums] at hread

/-- C10 witness: with two concrete vector lists the committed string is
the repr of the last list's flat coordinates, and reading back fails to
return what was set. -/
theorem insertion_setter_last_list_only_witness :
    insertion_write [] [[((1 : ℚ), (2 : ℚ), (3 : ℚ))], [(4, 5, 6)]]
      = some [("insertion", AttrStr.lit (numsLit [4, 5, 6]))] ∧
    insertion_read id [("insertion", AttrStr.lit (numsLit [4, 5, 6]))]
      ≠ some [[((1 : ℚ), (2 : ℚ), (3 : ℚ))], [(4, 5, 6)]] := by
  have h := insertion_setter_last_list_only id []
    [[((1 : ℚ), (2 : ℚ), (3 : ℚ))], [(4, 5, 6)]] (by decide)
  obtain ⟨lastl, hlast, he⟩ := h.1
  have hl : lastl = [(4, 5, 6)] := by
    have : some [((4 : ℚ), (5 : ℚ), (6 : ℚ))] = some lastl := by rw [← hlast]; rfl
    exact (Option.some_injective _ this).symm
  subst hl
  refine ⟨by simpa using he, ?_⟩
  exact h.2 [("insertion", AttrStr.lit (numsLit [4, 5, 6]))] (by simpa using he)

/-- The axes encoding in `Element.add_element` (element.py lines 670-693),
given the shape's bounding box corners.  With no axes supplied, a
default vertical axis of the bounding-box height is stored and bound to
the local variable `axes`; otherwise the else branch reassigns
`axes = []` before iterating over it, so the supplied axes are
discarded and `str([])` is stored.  Returns the stored literal and the
value left in the `axes` variable for the radii block below. -/
def addElement_axes (axes : List (List Point3)) (bbMin bbMax : Point3) :
    Lit × List (List Point3) :=
  match axes with
  | [] =>
    (.list [numsLit [0, 0, 0, 0, 0, bbMax.2.2 - bbMin.2.2]],
     [[(0, 0, 0), (0, 0, bbMax.2.2 - bbMin.2.2)]])
  | _ :: _ => (.list [], [])

/-- The radii-to-segment matching loop of `Element.add_element`
(element.py lines 701-709): walk the axes, and for each of the
`len(axis) - 1` segments append `radii[count % len(radii)]` while
incrementing the running counter. -/
def matchAxes (radii : List (List ℚ)) : List (List Point3) → ℕ → List (List (List ℚ))
  | [], _ => []
  | axis :: rest, count =>
      ((List.range (axis.length - 1)).map
        (fun j => radii.getD ((count + j) % radii.length) []))
        :: matchAxes radii rest (count + (axis.length - 1))

/-- The radii encoding in `Element.add_element` (element.py lines
695-710): with no radii supplied, half the bounding-box width; otherwise
the modulo-cyclic matching of the supplied radii over the axes variable
left by the axes block. -/
def addElement_radii (axesAfter : List (List Point3)) (radii : List (List ℚ))
    (bbMin bbMax : Point3) : Lit :=
  if radii.length = 0 then
    .list [numsLit [|bbMax.1 - bbMin.1| * (1 / 2)]]
  else
    .list ((matchAxes radii axesAfter 0).map
      (fun numbers => .list (numbers.map numsLit)))

/-- C9. The claim reads: with a non-empty radii list shorter than the
number of axis segments, each segment receives a radius value
round-robin via `radii[count % len(radii)]`.  The modulo-cyclic loop
does exist (third conjunct: on the supplied 3-segment axis it would
produce `[[[1],[2],[1]]]`), but `add_element` never reaches it with the
supplied axes: its else branch reassigns `axes = []` before serializing,
so supplying one 4-point axis and two radii stores `"[]"` for axes and
`"[]"` for radii — no segment receives any value. -/
theorem addElement_supplied_axes_discarded :
    addElement_axes [[(0, 0, 0), (1, 0, 0), (2, 0, 0), (3, 0, 0)]] (0, 0, 0) (10, 10, 10)
      = (Lit.list [], []) ∧
    addElement_radii [] [[1], [2]] (0, 0, 0) (10, 10, 10) = Lit.list [] ∧
    matchAxes [[1], [2]] [[(0, 0, 0), (1, 0, 0), (2, 0, 0), (3, 0, 0)]] 0
      = [[[1], [2], [1]]] := by
  refine ⟨rfl, rfl, rfl⟩

/-- A Python string processed character by character (group names are
split on backslashes and joined with commas). -/
abbrev PyStr : Type := List Char

/-- One value of the universal group dictionary of
`build_universal_group_dict` (groups.py lines 144-151): simple name,
optional parent path, child paths and member objects.  The Python sets
of child names are modelled as insertion-ordered duplicate-free lists;
the member set, used only through membership and cardinality, as a
`Finset`. -/
structure GInfo where
  name : PyStr
  parent : Option PyStr
  children : List PyStr
  objects : Finset ℕ
deriving DecidableEq

/-- Python dict lookup on an association list (first binding wins; the
construction keeps keys unique). -/
def alookup {κ β : Type} [DecidableEq κ] (m : List (κ × β)) (k : κ) : Option β :=
  (m.find? (fun kv => decide (kv.1 = k))).map (·.2)

/-- Update the value bound to a key in place; no effect when the key is
absent (the callers only update present keys). -/
def aupd {κ β : Type} [DecidableEq κ] (m : List (κ × β)) (k : κ) (f : β → β) :
    List (κ × β) :=
  m.map (fun kv => if kv.1 = k then (kv.1, f kv.2) else kv)

theorem alookup_cons {κ β : Type} [DecidableEq κ] (kv : κ × β) (rest : List (κ × β))
    (k : κ) :
    alookup (kv :: rest) k = if kv.1 = k then some kv.2 else alookup rest k := by
  by_cases h : kv.1 = k <;> simp [alookup, List.find?, h]

theorem alookup_aupd {κ β : Type} [DecidableEq κ] (m : List (κ × β)) (k k' : κ)
    (f : β → β) :
    alookup (aupd m k f) k' = if k' = k then (alookup m k').map f else alookup m k' := by
  induction m with
  | nil => by_cases h : k' = k <;> simp [alookup, aupd, h]
  | cons kv rest ih =>
    have hstep : aupd (kv :: rest) k f
        = (if kv.1 = k then (kv.1, f kv.2) else kv) :: aupd rest k f := by
      by_cases h : kv.1 = k <;> simp [aupd, h]
    rw [hstep]
    by_cases h2 : k' = k
    · subst h2
      by_cases h1 : kv.1 = k'
      · simp [alookup_cons, h1]
      · simp [alookup_cons, h1, ih]
    · by_cases h1 : kv.1 = k
      · have h3 : ¬kv.1 = k' := fun hc => h2 (by rw [← hc, h1])
        have h4 : ¬k = k' := fun hc => h2 hc.symm
        simp [alookup_cons, h1, h3, h4, ih, h2]
      · simp [alookup_cons, h1, ih, h2]

/-- Python truthiness of an optional string (`if parent:`). -/
def truthy : Option PyStr → Bool
  | none => false
  | some p => !p.isEmpty

/-- One step of Python `min(candidates, key=lambda x: x[1])`: keep the
current minimum unless the next key is strictly smaller (so the first
minimal element wins ties). -/
def minStep (b x : PyStr × ℕ) : PyStr × ℕ := if x.2 < b.2 then x else b

/-- Python `min(candidates, key=lambda x: x[1])` over a possibly empty
list, `none` on the empty list. -/
def pyMin (l : List (PyStr × ℕ)) : Option (PyStr × ℕ) :=
  match l with
  | [] => none
  | c :: rest => some (rest.foldl minStep c)

theorem foldlMin_spec (l : List (PyStr × ℕ)) :
    ∀ b : PyStr × ℕ, (l.foldl minStep b = b ∨ l.foldl minStep b ∈ l) ∧
      (l.foldl minStep b).2 ≤ b.2 ∧ ∀ x ∈ l, (l.foldl minStep b).2 ≤ x.2 := by
  induction l with
  | nil => intro b; exact ⟨Or.inl rfl, le_refl _, by simp⟩
  | cons x xs ih =>
    intro b
    obtain ⟨h1, h2, h3⟩ := ih (minStep b x)
    have hstep : (minStep b x = b ∨ minStep b x = x) ∧
        (minStep b x).2 ≤ b.2 ∧ (minStep b x).2 ≤ x.2 := by
      unfold minStep
      by_cases h : x.2 < b.2
      · exact ⟨Or.inr (if_pos h), by simp [if_pos h]; omega, by simp [if_pos h]⟩
      · exact ⟨Or.inl (if_neg h), by simp [if_neg h], by simp [if_neg h]; omega⟩
    refine ⟨?_, ?_, ?_⟩
    · rcases h1 with h1 | h1
      · rw [List.foldl_cons, h1]
        rcases hstep.1 with h | h
        · exact Or.inl h
        · rw [h]; exact Or.inr (List.mem_cons_self x xs)
      · exact Or.inr (List.mem_cons_of_mem x h1)
    · calc (List.foldl minStep (minStep b x) xs).2 ≤ (minStep b x).2 := h2
        _ ≤ b.2 := hstep.2.1
    · intro y hy
      rcases List.mem_cons.mp hy with hy | hy
      · calc (List.foldl minStep (minStep b x) xs).2 ≤ (minStep b x).2 := h2
          _ ≤ y.2 := hy ▸ hstep.2.2
      · exact h3 y hy

theorem pyMin_spec (l : List (PyStr × ℕ)) (m : PyStr × ℕ) (h : pyMin l = some m) :
    m ∈ l ∧ ∀ x ∈ l, m.2 ≤ x.2 := by
  cases l with
  | nil => cases h
  | cons c rest =>
    have hm : m = rest.foldl minStep c := by
      simpa [pyMin] using h.symm
    obtain ⟨h1, h2, h3⟩ := foldlMin_spec rest c
    constructor
    · rcases h1 with h1 | h1
      · rw [hm, h1]; exact List.mem_cons_self c rest
      · exact hm ▸ List.mem_cons_of_mem c h1
    · intro x hx
      rcases List.mem_cons.mp hx with hx | hx
      · exact hm ▸ hx ▸ h2
      · exact hm ▸ h3 x hx

theorem pyMin_eq_none (l : List (PyStr × ℕ)) : pyMin l = none ↔ l = [] := by
  cases l <;> simp [pyMin]

/-- The candidate list of `infer_group_hierarchy` (groups.py lines
238-245) for one group: every other group whose member set strictly
contains the group's member set, paired with the cardinality difference. -/
def candidatesFor (gd : List (PyStr × GInfo)) (g : PyStr × GInfo) : List (PyStr × ℕ) :=
  (gd.filter (fun o => !decide (o.1 = g.1) && decide (g.2.objects ⊆ o.2.objects)
      && !decide (g.2.objects = o.2.objects))).map
    (fun o => (o.1, o.2.objects.card - g.2.objects.card))

/-- The inferred parent of one group (groups.py lines 246-248): the
first-minimal candidate by cardinality difference, `none` when there is
no candidate. -/
def inferredParentOf (gd : List (PyStr × GInfo)) (g : PyStr × GInfo) : Option PyStr :=
  (pyMin (candidatesFor gd g)).map (·.1)

/-- infer_group_hierarchy (groups.py lines 232-249): the inferred-parent
map over the group dictionary, in dictionary order. -/
def infer_group_hierarchy (gd : List (PyStr × GInfo)) : List (PyStr × Option PyStr) :=
  gd.map (fun g => (g.1, inferredParentOf gd g))

/-- build_inferred_tree (groups.py lines 252-260), extensionally: roots
are the groups whose inferred parent is falsy (None or empty), in
iteration order; each group's children are the groups naming it as a
truthy parent, in iteration order; the whole call fails (Python
KeyError) iff some truthy parent is not itself a key. -/
def build_inferred_tree (ips : List (PyStr × Option PyStr)) :
    Option (List PyStr × List (PyStr × List PyStr)) :=
  if ips.all (fun gp => match gp.2 with
      | none => true
      | some p => p.isEmpty || ips.any (fun q => decide (q.1 = p))) then
    some ((ips.filter (fun gp => !truthy gp.2)).map (·.1),
          ips.map (fun g => (g.1,
            (ips.filter (fun c => decide (c.2 = some g.1) && !g.1.isEmpty)).map (·.1))))
  else none

theorem mem_candidatesFor (gd : List (PyStr × GInfo)) (g : PyStr × GInfo)
    (c : PyStr × ℕ) :
    c ∈ candidatesFor gd g ↔ ∃ o ∈ gd, ¬o.1 = g.1 ∧ g.2.objects ⊂ o.2.objects ∧
      c = (o.1, o.2.objects.card - g.2.objects.card) := by
  simp only [candidatesFor, List.mem_map, List.mem_filter, Bool.and_eq_true,
    Bool.not_eq_true', decide_eq_false_iff_not, decide_eq_true_eq]
  constructor
  · rintro ⟨o, ⟨ho, ⟨hne, hsub⟩, hneq⟩, hc⟩
    exact ⟨o, ho, hne, Finset.ssubset_iff_subset_ne.mpr ⟨hsub, hneq⟩, hc.symm⟩
  · rintro ⟨o, ho, hne, hss, hc⟩
    obtain ⟨hsub, hneq⟩ := Finset.ssubset_iff_subset_ne.mp hss
    exact ⟨o, ⟨ho, ⟨hne, hsub⟩, hneq⟩, hc.symm⟩

/-- The three-group dictionary of the claim's example: member sets
G1 = {1,2}, G2 = {1,2,3}, G3 = {1,2,3,4}. -/
def demoGroups : List (PyStr × GInfo) :=
  [("G1".data, ⟨"G1".data, none, [], {1, 2}⟩),
   ("G2".data, ⟨"G2".data, none, [], {1, 2, 3}⟩),
   ("G3".data, ⟨"G3".data, none, [], {1, 2, 3, 4}⟩)]

/-- C3. The claim reads: each group's inferred parent is, among the
other groups whose member set strictly contains its member set, one
with the smallest cardinality difference; a group with no such
candidate gets parent none and is a forest root.  First conjunct: the
general characterization over every group dictionary (the entry for g
in the inferred-parent map; none exactly when no strict superset
exists; a returned parent names a strict-superset group of minimal
cardinality difference).  Remaining conjuncts: on the example
G1 = {1,2}, G2 = {1,2,3}, G3 = {1,2,3,4}, the parent of G1 is G2, the
parent of G2 is G3, and G3 is the unique root of the inferred tree. -/
theorem infer_parent_minimal_strict_superset :
    (∀ (gd : List (PyStr × GInfo)) (g : PyStr × GInfo), g ∈ gd →
      (g.1, inferredParentOf gd g) ∈ infer_group_hierarchy gd ∧
      (inferredParentOf gd g = none →
        ∀ o ∈ gd, ¬o.1 = g.1 → ¬g.2.objects ⊂ o.2.objects) ∧
      (∀ p, inferredParentOf gd g = some p →
        ∃ o ∈ gd, o.1 = p ∧ ¬o.1 = g.1 ∧ g.2.objects ⊂ o.2.objects ∧
          ∀ o' ∈ gd, ¬o'.1 = g.1 → g.2.objects ⊂ o'.2.objects →
            o.2.objects.card - g.2.objects.card
              ≤ o'.2.objects.card - g.2.objects.card)) ∧
    infer_group_hierarchy demoGroups =
      [("G1".data, some "G2".data), ("G2".data, some "G3".data), ("G3".data, none)] ∧
    build_inferred_tree (infer_group_hierarchy demoGroups) =
      some (["G3".data],
        [("G1".data, []), ("G2".data, ["G1".data]), ("G3".data, ["G2".data])]) := by
  refine ⟨?_, by decide, by decide⟩
  intro gd g hg
  refine ⟨List.mem_map_of_mem _ hg, ?_, ?_⟩
  · intro hnone o ho hne hss
    have hcand : (o.1, o.2.objects.card - g.2.objects.card) ∈ candidatesFor gd g :=
      (mem_candidatesFor gd g _).mpr ⟨o, ho, hne, hss, rfl⟩
    have : candidatesFor gd g = [] := by
      rcases hc : pyMin (candidatesFor gd g) with _ | m
      · exact (pyMin_eq_none _).mp hc
      · rw [inferredParentOf, hc] at hnone; cases hnone
    rw [this] at hcand
    cases hcand
  · intro p hp
    obtain ⟨m, hm, hmp⟩ := Option.map_eq_some'.mp hp
    obtain ⟨hmem, hmin⟩ := pyMin_spec _ _ hm
    obtain ⟨o, ho, hne, hss, hco⟩ := (mem_candidatesFor gd g _).mp hmem
    refine ⟨o, ho, ?_, hne, hss, ?_⟩
    · rw [← hmp, hco]
    · intro o' ho' hne' hss'
      have hcand' : (o'.1, o'.2.objects.card - g.2.objects.card) ∈ candidatesFor gd g :=
        (mem_candidatesFor gd g _).mpr ⟨o', ho', hne', hss', rfl⟩
      have := hmin _ hcand'
      rw [hco] at this
      exact this

/-- C3 witness: in the example dictionary, the group G2 is a strict
superset of G1 of minimal cardinality difference, exactly as the
inferred parent of G1 reports. -/
theorem infer_parent_minimal_strict_superset_witness :
    ∃ o ∈ demoGroups, o.1 = "G2".data ∧ ¬o.1 = "G1".data ∧
      ({1, 2} : Finset ℕ) ⊂ o.2.objects ∧
      ∀ o' ∈ demoGroups, ¬o'.1 = "G1".data → ({1, 2} : Finset ℕ) ⊂ o'.2.objects →
        o.2.objects.card - 2 ≤ o'.2.objects.card - 2 := by
  have h := (infer_parent_minimal_strict_superset.1 demoGroups
    ("G1".data, ⟨"G1".data, none, [], {1, 2}⟩)
    (by decide)).2.2 "G2".data (by decide)
  exact h

/-- Python `s.strip() == ""`: every character is whitespace. -/
def isBlank (s : PyStr) : Bool := s.all (·.isWhitespace)

/-- The substitution `p if p.strip() != "" else "(unnamed)"` applied to a
group name or name segment (groups.py lines 161-164). -/
def orUnnamed (s : PyStr) : PyStr := if isBlank s then "(unnamed)".data else s

/-- Python `str.split(sep)` for a one-character separator: split into the
(always non-empty) list of separator-free pieces. -/
def splitChar (c : Char) : List Char → List (List Char)
  | [] => [[]]
  | a :: rest =>
    match splitChar c rest with
    | [] => [[a]]
    | h :: t => if a = c then [] :: h :: t else (a :: h) :: t

theorem splitChar_ne_nil (c : Char) (l : List Char) : splitChar c l ≠ [] := by
  cases l with
  | nil => simp [splitChar]
  | cons a rest =>
    unfold splitChar
    cases splitChar c rest with
    | nil => simp
    | cons h t => by_cases hac : a = c <;> simp [hac]

theorem splitChar_not_mem (c : Char) :
    ∀ l : List Char, ∀ p ∈ splitChar c l, c ∉ p := by
  intro l
  induction l with
  | nil =>
    intro p hp
    simp [splitChar] at hp
    simp [hp]
  | cons a rest ih =>
    intro p hp
    cases hsp : splitChar c rest with
    | nil => exact absurd hsp (splitChar_ne_nil c rest)
    | cons h t =>
      have he : splitChar c (a :: rest)
          = if a = c then [] :: h :: t else (a :: h) :: t := by
        unfold splitChar; rw [hsp]
      rw [he] at hp
      by_cases hac : a = c
      · rw [if_pos hac] at hp
        rcases List.mem_cons.mp hp with hp | hp
        · simp [hp]
        · exact ih p (hsp ▸ hp)
      · rw [if_neg hac] at hp
        rcases List.mem_cons.mp hp with hp | hp
        · rw [hp]
          intro hcm
          rcases List.mem_cons.mp hcm with hcm | hcm
          · exact hac hcm.symm
          · exact ih h (hsp ▸ List.mem_cons_self h t) hcm
        · exact ih p (hsp ▸ List.mem_cons_of_mem h hp)

/-- Python `set.add` on an insertion-ordered set model: append unless
present. -/
def setAdd (l : List PyStr) (x : PyStr) : List PyStr := if x ∈ l then l else l ++ [x]

/-- Python `dict[k] = v`: overwrite in place or append. -/
def aset {κ β : Type} [DecidableEq κ] (m : List (κ × β)) (k : κ) (v : β) :
    List (κ × β) :=
  if (alookup m k).isSome then aupd m k (fun _ => v) else m ++ [(k, v)]

theorem alookup_append_left {κ β : Type} [DecidableEq κ] (m m' : List (κ × β)) (k : κ)
    (v : β) (h : alookup m k = some v) : alookup (m ++ m') k = some v := by
  induction m with
  | nil => cases h
  | cons kv rest ih =>
    rw [List.cons_append]
    rw [alookup_cons] at h ⊢
    by_cases hk : kv.1 = k
    · rwa [if_pos hk] at h ⊢
    · rw [if_neg hk] at h ⊢
      exact ih h

theorem alookup_append_right {κ β : Type} [DecidableEq κ] (m m' : List (κ × β)) (k : κ)
    (h : alookup m k = none) : alookup (m ++ m') k = alookup m' k := by
  induction m with
  | nil => rfl
  | cons kv rest ih =>
    rw [List.cons_append]
    rw [alookup_cons] at h ⊢
    by_cases hk : kv.1 = k
    · rw [if_pos hk] at h; cases h
    · rw [if_neg hk] at h ⊢
      exact ih h

theorem alookup_append_cases {κ β : Type} [DecidableEq κ] (m : List (κ × β))
    (k0 k : κ) (v0 v : β) (h : alookup (m ++ [(k0, v0)]) k = some v) :
    alookup m k = some v ∨ (k = k0 ∧ v = v0 ∧ alookup m k = none) := by
  cases hm : alookup m k with
  | some w =>
    left
    rw [alookup_append_left m _ k w hm] at h
    exact h
  | none =>
    right
    have h' : alookup ([(k0, v0)] : List (κ × β)) k = some v := by
      rw [← alookup_append_right m _ k hm]; exact h
    rw [alookup_cons] at h'
    by_cases hk : k0 = k
    · rw [if_pos hk] at h'
      exact ⟨hk.symm, (Option.some_injective _ h').symm, rfl⟩
    · rw [if_neg hk] at h'
      simp [alookup] at h'

theorem alookup_aset {κ β : Type} [DecidableEq κ] (m : List (κ × β)) (k k' : κ)
    (v : β) : alookup (aset m k v) k' = if k' = k then some v else alookup m k' := by
  unfold aset
  by_cases hp : (alookup m k).isSome
  · rw [if_pos hp, alookup_aupd]
    by_cases hk : k' = k
    · rw [if_pos hk, if_pos hk, hk]
      obtain ⟨w, hw⟩ := Option.isSome_iff_exists.mp hp
      rw [hw]
      rfl
    · rw [if_neg hk, if_neg hk]
  · rw [if_neg hp]
    have hnone : alookup m k = none := Option.not_isSome_iff_eq_none.mp hp
    by_cases hk : k' = k
    · rw [if_pos hk, hk, alookup_append_right m _ k hnone, alookup_cons]
      simp
    · rw [if_neg hk]
      cases hm : alookup m k' with
      | some w => exact alookup_append_left m _ k' w hm
      | none =>
        rw [alookup_append_right m _ k' hm, alookup_cons]
        have hkk : ¬k = k' := fun hc => hk hc.symm
        simp [hkk, alookup]

/-- The association list of groups built by `build_universal_group_dict`. -/
abbrev GDict : Type := List (PyStr × GInfo)

/-- The per-object group-membership map (`object_group_map`). -/
abbrev OGM : Type := List (ℕ × List PyStr)

/-- update_group (groups.py lines 144-154): create the node if missing
(with the given simple name and parent), otherwise fill in the parent
only when one is given (truthy) and the stored parent is still None. -/
def update_group (gd : GDict) (full simple : PyStr) (parent : Option PyStr) : GDict :=
  if (alookup gd full).isSome then
    aupd gd full (fun info =>
      if truthy parent && decide (info.parent = none) then
        { info with parent := parent }
      else info)
  else gd ++ [(full, ⟨simple, parent, [], ∅⟩)]

/-- `group_dict[parent]["children"].add(full_name)` (groups.py line 176). -/
def addChild (gd : GDict) (parent child : PyStr) : GDict :=
  aupd gd parent (fun info => { info with children := setAdd info.children child })

/-- `group_dict[full_name]["objects"].add(obj)` (groups.py line 177). -/
def addObject (gd : GDict) (key : PyStr) (o : ℕ) : GDict :=
  aupd gd key (fun info => { info with objects := insert o info.objects })

/-- `object_group_map[obj].add(full_name)` (groups.py line 178). -/
def ogmAdd (ogm : OGM) (o : ℕ) (g : PyStr) : OGM :=
  aupd ogm o (fun s => setAdd s g)

/-- `object_group_map[obj] = set()` (groups.py line 158). -/
def ogmInit (ogm : OGM) (o : ℕ) : OGM := aset ogm o []

/-- The running state of build_universal_group_dict: the group dict and
the object-to-groups map. -/
abbrev BState : Type := GDict × OGM

/-- The inner chain loop of build_universal_group_dict (groups.py lines
165-179): walk the path segments accumulating the full path name (the
backslash-join of the chain so far, which is the previous full name
plus a separator plus the segment), creating/updating each node,
linking it under a truthy parent, and adding the object to the node and
the node to the object's group set. -/
def processParts (o : ℕ) : List PyStr → Option PyStr → BState → BState
  | [], _, st => st
  | part :: rest, parent, st =>
    let full : PyStr :=
      match parent with
      | none => part
      | some pf => pf ++ '\\' :: part
    let gd1 := update_group st.1 full part parent
    let gd2 :=
      match parent with
      | some p => if !p.isEmpty then addChild gd1 p full else gd1
      | none => gd1
    let gd3 := addObject gd2 full o
    processParts o rest (some full) (gd3, ogmAdd st.2 o full)

/-- Processing one group tag of one object (groups.py lines 160-164 plus
the chain loop): normalize the blank tag, split on backslashes,
normalize blank segments, then run the chain loop. -/
def processTag (o : ℕ) (st : BState) (grp : PyStr) : BState :=
  processParts o ((splitChar '\\' (orUnnamed grp)).map orUnnamed) none st

/-- The synthetic group for untagged objects. -/
def ungrouped : PyStr := "Ungrouped".data

/-- Processing one object (groups.py lines 156-184): initialize its
group set; with tags, process each tag; with no (falsy) tags, place it
in the synthetic Ungrouped group. -/
def processObj (st : BState) (ot : ℕ × List PyStr) : BState :=
  let st1 : BState := (st.1, ogmInit st.2 ot.1)
  match ot.2 with
  | [] =>
    let gd1 := update_group st1.1 ungrouped ungrouped none
    let gd2 := addObject gd1 ungrouped ot.1
    (gd2, ogmAdd st1.2 ot.1 ungrouped)
  | g :: gs => (g :: gs).foldl (processTag ot.1) st1

/-- Python `",".join(value)` over the insertion-ordered model of the
group set. -/
def joinComma (l : List PyStr) : PyStr := List.intercalate [','] l

/-- The signature-to-objects map (groups.py lines 186-190): first bind
every comma-joined signature to an empty list, then append each object
to its signature's list. -/
def buildGom (ogm : OGM) : List (PyStr × List ℕ) :=
  let g0 := ogm.foldl (fun m kv => aset m (joinComma kv.2) []) []
  ogm.foldl (fun m kv => aupd m (joinComma kv.2) (fun l => l ++ [kv.1])) g0

/-- build_universal_group_dict (groups.py lines 139-192) over objects
given with their group-tag lists: returns the group dict, the object
group map and the signature map. -/
def build_universal_group_dict (objs : List (ℕ × List PyStr)) :
    GDict × OGM × List (PyStr × List ℕ) :=
  let st := objs.foldl processObj ([], [])
  (st.1, st.2, buildGom st.2)


/-- Monotone evolution of the group dict: every present node stays
present, its member set only grows, and a set parent never changes. -/
def gdKeep (gd gd' : GDict) : Prop :=
  ∀ k info, alookup gd k = some info →
    ∃ info', alookup gd' k = some info' ∧ info.objects ⊆ info'.objects ∧
      ∀ p, info.parent = some p → info'.parent = some p

theorem gdKeep_refl (gd : GDict) : gdKeep gd gd :=
  fun _ i h => ⟨i, h, subset_rfl, fun _ hp => hp⟩

theorem gdKeep_trans {a b c : GDict} (h1 : gdKeep a b) (h2 : gdKeep b c) :
    gdKeep a c := by
  intro k i h
  obtain ⟨i1, hi1, ho1, hp1⟩ := h1 k i h
  obtain ⟨i2, hi2, ho2, hp2⟩ := h2 k i1 hi1
  exact ⟨i2, hi2, ho1.trans ho2, fun p hp => hp2 p (hp1 p hp)⟩

theorem gdKeep_aupd_of (gd : GDict) (k : PyStr) (f : GInfo → GInfo)
    (hf : ∀ i, i.objects ⊆ (f i).objects ∧
      ∀ p, i.parent = some p → (f i).parent = some p) :
    gdKeep gd (aupd gd k f) := by
  intro k' i h
  rw [alookup_aupd]
  by_cases hk : k' = k
  · rw [if_pos hk, h]
    exact ⟨f i, rfl, (hf i).1, (hf i).2⟩
  · rw [if_neg hk]
    exact ⟨i, h, subset_rfl, fun _ hp => hp⟩

theorem gdKeep_update_group (gd : GDict) (full simple : PyStr)
    (parent : Option PyStr) : gdKeep gd (update_group gd full simple parent) := by
  unfold update_group
  by_cases hp : (alookup gd full).isSome
  · rw [if_pos hp]
    apply gdKeep_aupd_of
    intro i
    constructor
    · split <;> exact subset_rfl
    · intro p hp'
      have hc : (truthy parent && decide (i.parent = none)) = false := by
        rw [hp']
        simp
      rw [if_neg (by rw [hc]; exact Bool.false_ne_true)]
      exact hp'
  · rw [if_neg hp]
    intro k i h
    exact ⟨i, alookup_append_left _ _ _ _ h, subset_rfl, fun _ hp' => hp'⟩

theorem gdKeep_addChild (gd : GDict) (p c : PyStr) : gdKeep gd (addChild gd p c) :=
  gdKeep_aupd_of _ _ _ (fun _ => ⟨subset_rfl, fun _ hp => hp⟩)

theorem gdKeep_addObject (gd : GDict) (key : PyStr) (o : ℕ) :
    gdKeep gd (addObject gd key o) :=
  gdKeep_aupd_of _ _ _ (fun i => ⟨Finset.subset_insert o i.objects, fun _ hp => hp⟩)

theorem gdKeep_processParts (o : ℕ) :
    ∀ (parts : List PyStr) (parent : Option PyStr) (st : BState),
      gdKeep st.1 (processParts o parts parent st).1 := by
  intro parts
  induction parts with
  | nil => intro parent st; exact gdKeep_refl _
  | cons part rest ih =>
    intro parent st
    cases parent with
    | none =>
      simp only [processParts]
      refine gdKeep_trans ?_ (ih _ _)
      exact gdKeep_trans (gdKeep_update_group st.1 part part none)
        (gdKeep_addObject _ part o)
    | some p =>
      simp only [processParts]
      by_cases hp : (!p.isEmpty) = true
      · rw [if_pos hp]
        refine gdKeep_trans ?_ (ih _ _)
        exact gdKeep_trans (gdKeep_update_group st.1 (p ++ '\\' :: part) part (some p))
          (gdKeep_trans (gdKeep_addChild _ p (p ++ '\\' :: part))
            (gdKeep_addObject _ (p ++ '\\' :: part) o))
      · rw [if_neg hp]
        refine gdKeep_trans ?_ (ih _ _)
        exact gdKeep_trans (gdKeep_update_group st.1 (p ++ '\\' :: part) part (some p))
          (gdKeep_addObject _ (p ++ '\\' :: part) o)

theorem gdKeep_processTag (o : ℕ) (st : BState) (grp : PyStr) :
    gdKeep st.1 (processTag o st grp).1 :=
  gdKeep_processParts o _ none st

theorem gdKeep_foldl_processTag (o : ℕ) :
    ∀ (gs : List PyStr) (st : BState), gdKeep st.1 (gs.foldl (processTag o) st).1 := by
  intro gs
  induction gs with
  | nil => intro st; exact gdKeep_refl _
  | cons g rest ih =>
    intro st
    exact gdKeep_trans (gdKeep_processTag o st g) (ih _)

theorem gdKeep_processObj (st : BState) (ot : ℕ × List PyStr) :
    gdKeep st.1 (processObj st ot).1 := by
  unfold processObj
  cases ot.2 with
  | nil =>
    exact gdKeep_trans (gdKeep_update_group st.1 ungrouped ungrouped none)
      (gdKeep_addObject _ ungrouped ot.1)
  | cons g gs =>
    exact gdKeep_foldl_processTag ot.1 (g :: gs) (st.1, ogmInit st.2 ot.1)

theorem gdKeep_foldl_processObj :
    ∀ (objs : List (ℕ × List PyStr)) (st : BState),
      gdKeep st.1 (objs.foldl processObj st).1 := by
  intro objs
  induction objs with
  | nil => intro st; exact gdKeep_refl _
  | cons ot rest ih =>
    intro st
    exact gdKeep_trans (gdKeep_processObj st ot) (ih _)

/-- No backslash occurs in the string. -/
abbrev bsFree (s : PyStr) : Prop := '\\' ∉ s

/-- The structural invariant of the group dict: a node without a parent
has a single-segment (backslash-free) key, and a node with parent `p`
has key `p ++ "\\" ++ s` for a backslash-free final segment `s`. -/
def GInv (gd : GDict) : Prop :=
  ∀ k info, alookup gd k = some info →
    (info.parent = none → bsFree k) ∧
    ∀ p, info.parent = some p → ∃ s, bsFree s ∧ k = p ++ '\\' :: s

theorem GInv_nil : GInv [] := by
  intro k info h
  cases h

theorem GInv_aupd_parent_keep (gd : GDict) (k : PyStr) (f : GInfo → GInfo)
    (hf : ∀ i, (f i).parent = i.parent) (h : GInv gd) : GInv (aupd gd k f) := by
  intro k' i' hl
  rw [alookup_aupd] at hl
  by_cases hk : k' = k
  · rw [if_pos hk] at hl
    obtain ⟨i, hi, hfi⟩ := Option.map_eq_some'.mp hl
    obtain ⟨h1, h2⟩ := h k' i hi
    have hpar : i'.parent = i.parent := by rw [← hfi, hf i]
    exact ⟨fun hn => h1 (hpar ▸ hn), fun p hp => h2 p (hpar ▸ hp)⟩
  · rw [if_neg hk] at hl
    exact h k' i' hl

theorem GInv_addChild (gd : GDict) (p c : PyStr) (h : GInv gd) :
    GInv (addChild gd p c) :=
  GInv_aupd_parent_keep gd p _ (fun _ => rfl) h

theorem GInv_addObject (gd : GDict) (key : PyStr) (o : ℕ) (h : GInv gd) :
    GInv (addObject gd key o) :=
  GInv_aupd_parent_keep gd key _ (fun _ => rfl) h

theorem GInv_update_group (gd : GDict) (full simple : PyStr) (parent : Option PyStr)
    (h : GInv gd)
    (hcall : (parent = none ∧ bsFree full) ∨
      ∃ pf part, parent = some pf ∧ bsFree part ∧ full = pf ++ '\\' :: part) :
    GInv (update_group gd full simple parent) := by
  unfold update_group
  by_cases hp : (alookup gd full).isSome
  · rw [if_pos hp]
    intro k' i' hl
    rw [alookup_aupd] at hl
    by_cases hk : k' = full
    · rw [if_pos hk] at hl
      obtain ⟨i, hi, hfi⟩ := Option.map_eq_some'.mp hl
      obtain ⟨h1, h2⟩ := h k' i hi
      by_cases hc : (truthy parent && decide (i.parent = none)) = true
      · rw [if_pos hc] at hfi
        have hpar : i'.parent = parent := by rw [← hfi]
        rcases hcall with ⟨hn, _⟩ | ⟨pf, part, hpf, hfree, hful⟩
        · rw [hn] at hc; simp [truthy] at hc
        · constructor
          · intro hnone
            rw [hpar, hpf] at hnone
            cases hnone
          · intro p hp'
            rw [hpar, hpf] at hp'
            have hppf : pf = p := Option.some_injective _ hp'
            exact ⟨part, hfree, by rw [hk, hful, hppf]⟩
      · rw [if_neg hc] at hfi
        rw [← hfi]
        exact ⟨h1, h2⟩
    · rw [if_neg hk] at hl
      exact h k' i' hl
  · rw [if_neg hp]
    intro k' i' hl
    rcases alookup_append_cases gd full k' ⟨simple, parent, [], ∅⟩ i' hl with
      hold | ⟨hkf, hiv, _⟩
    · exact h k' i' hold
    · constructor
      · intro hnone
        rw [hiv] at hnone
        rcases hcall with ⟨_, hfree⟩ | ⟨pf, part, hpf, _, _⟩
        · exact hkf ▸ hfree
        · rw [show (⟨simple, parent, [], ∅⟩ : GInfo).parent = parent from rfl, hpf]
            at hnone
          cases hnone
      · intro p hp'
        rw [hiv] at hp'
        rw [show (⟨simple, parent, [], ∅⟩ : GInfo).parent = parent from rfl] at hp'
        rcases hcall with ⟨hn, _⟩ | ⟨pf, part, hpf, hfree, hful⟩
        · rw [hn] at hp'; cases hp'
        · rw [hpf] at hp'
          have hppf : pf = p := Option.some_injective _ hp'
          exact ⟨part, hfree, by rw [hkf, hful, hppf]⟩

theorem GInv_processParts (o : ℕ) :
    ∀ (parts : List PyStr) (parent : Option PyStr) (st : BState),
      (∀ p ∈ parts, bsFree p) → GInv st.1 → GInv (processParts o parts parent st).1 := by
  intro parts
  induction parts with
  | nil => intro parent st _ h; exact h
  | cons part rest ih =>
    intro parent st hfree h
    have hfr : bsFree part := hfree part (List.mem_cons_self _ _)
    have hrest : ∀ p ∈ rest, bsFree p := fun p hp =>
      hfree p (List.mem_cons_of_mem _ hp)
    cases parent with
    | none =>
      simp only [processParts]
      apply ih _ _ hrest
      exact GInv_addObject _ part o
        (GInv_update_group st.1 part part none h (Or.inl ⟨rfl, hfr⟩))
    | some p =>
      simp only [processParts]
      by_cases hp : (!p.isEmpty) = true
      · rw [if_pos hp]
        apply ih _ _ hrest
        exact GInv_addObject _ _ o
          (GInv_addChild _ p _
            (GInv_update_group st.1 (p ++ '\\' :: part) part (some p) h
              (Or.inr ⟨p, part, rfl, hfr, rfl⟩)))
      · rw [if_neg hp]
        apply ih _ _ hrest
        exact GInv_addObject _ _ o
          (GInv_update_group st.1 (p ++ '\\' :: part) part (some p) h
            (Or.inr ⟨p, part, rfl, hfr, rfl⟩))

theorem bsFree_unnamed : bsFree "(unnamed)".data := by
  intro h
  simp at h

theorem GInv_processTag (o : ℕ) (st : BState) (grp : PyStr) (h : GInv st.1) :
    GInv (processTag o st grp).1 := by
  apply GInv_processParts o _ none st _ h
  intro p hp
  obtain ⟨q, hq, hqp⟩ := List.mem_map.mp hp
  rw [← hqp]
  unfold orUnnamed
  by_cases hb : isBlank q = true
  · rw [if_pos hb]; exact bsFree_unnamed
  · rw [if_neg hb]; exact splitChar_not_mem '\\' _ q hq

theorem GInv_foldl_processTag (o : ℕ) :
    ∀ (gs : List PyStr) (st : BState),
      GInv st.1 → GInv (gs.foldl (processTag o) st).1 := by
  intro gs
  induction gs with
  | nil => intro st h; exact h
  | cons g rest ih =>
    intro st h
    exact ih _ (GInv_processTag o st g h)

theorem bsFree_ungrouped : bsFree ungrouped := by
  intro h
  simp [ungrouped] at h

theorem GInv_processObj (st : BState) (ot : ℕ × List PyStr) (h : GInv st.1) :
    GInv (processObj st ot).1 := by
  unfold processObj
  cases ot.2 with
  | nil =>
    exact GInv_addObject _ ungrouped ot.1
      (GInv_update_group st.1 ungrouped ungrouped none h
        (Or.inl ⟨rfl, bsFree_ungrouped⟩))
  | cons g gs =>
    exact GInv_foldl_processTag ot.1 (g :: gs) (st.1, ogmInit st.2 ot.1) h

theorem GInv_foldl_processObj :
    ∀ (objs : List (ℕ × List PyStr)) (st : BState),
      GInv st.1 → GInv (objs.foldl processObj st).1 := by
  intro objs
  induction objs with
  | nil => intro st h; exact h
  | cons ot rest ih =>
    intro st h
    exact ih _ (GInv_processObj st ot h)

/-- Splitting a string at a separator with a separator-free tail is
unique: the parent path before the last backslash is determined. -/
theorem last_sep_unique :
    ∀ (p1 s1 p2 s2 : List Char), '\\' ∉ s1 → '\\' ∉ s2 →
      p1 ++ '\\' :: s1 = p2 ++ '\\' :: s2 → p1 = p2 ∧ s1 = s2 := by
  intro p1
  induction p1 with
  | nil =>
    intro s1 p2 s2 h1 h2 he
    cases p2 with
    | nil =>
      simp only [List.nil_append, List.cons.injEq] at he
      exact ⟨rfl, he.2⟩
    | cons x xs =>
      simp only [List.nil_append, List.cons_append, List.cons.injEq] at he
      exfalso
      apply h1
      rw [he.2]
      exact List.mem_append.mpr (Or.inr (List.mem_cons_self _ _))
  | cons x xs ih =>
    intro s1 p2 s2 h1 h2 he
    cases p2 with
    | nil =>
      simp only [List.nil_append, List.cons_append, List.cons.injEq] at he
      exfalso
      apply h2
      rw [← he.2]
      exact List.mem_append.mpr (Or.inr (List.mem_cons_self _ _))
    | cons y ys =>
      simp only [List.cons_append, List.cons.injEq] at he
      obtain ⟨hp, hs⟩ := ih s1 ys s2 h1 h2 he.2
      exact ⟨by rw [he.1, hp], hs⟩

theorem alookup_update_group_self (gd : GDict) (full simple : PyStr)
    (parent : Option PyStr) :
    ∃ i, alookup (update_group gd full simple parent) full = some i := by
  unfold update_group
  by_cases hp : (alookup gd full).isSome
  · rw [if_pos hp, alookup_aupd, if_pos rfl]
    obtain ⟨w, hw⟩ := Option.isSome_iff_exists.mp hp
    rw [hw]
    exact ⟨_, rfl⟩
  · rw [if_neg hp,
      alookup_append_right _ _ _ (Option.not_isSome_iff_eq_none.mp hp), alookup_cons]
    exact ⟨_, if_pos rfl⟩

/-- After `update_group` of a chain node `full = a ++ "\\" ++ s0` under a
truthy parent `a`, the node's parent is `some a`: either it was just
created with that parent, or it was parentless and got filled in, or —
by the structural invariant and the uniqueness of the last-separator
split — its existing parent already was `a`. -/
theorem alookup_update_group_parent (gd : GDict) (full simple a s0 : PyStr)
    (hinv : GInv gd) (hs0 : bsFree s0) (hful : full = a ++ '\\' :: s0)
    (ha : (!a.isEmpty) = true) :
    ∃ i, alookup (update_group gd full simple (some a)) full = some i ∧
      i.parent = some a := by
  unfold update_group
  by_cases hp : (alookup gd full).isSome
  · rw [if_pos hp, alookup_aupd, if_pos rfl]
    obtain ⟨w, hw⟩ := Option.isSome_iff_exists.mp hp
    rw [hw]
    by_cases hc : (truthy (some a) && decide (w.parent = none)) = true
    · refine ⟨_, rfl, ?_⟩
      show (if (truthy (some a) && decide (w.parent = none)) = true
          then { w with parent := some a } else w).parent = some a
      rw [if_pos hc]
    · refine ⟨_, rfl, ?_⟩
      show (if (truthy (some a) && decide (w.parent = none)) = true
          then { w with parent := some a } else w).parent = some a
      rw [if_neg hc]
      have hwp : w.parent ≠ none := by
        intro hn
        apply hc
        rw [show truthy (some a) = !a.isEmpty from rfl, ha, hn]
        rfl
      obtain ⟨p, hp'⟩ := Option.ne_none_iff_exists'.mp hwp
      obtain ⟨_, h2⟩ := hinv full w hw
      obtain ⟨s', hs', hful'⟩ := h2 p hp'
      have hu := last_sep_unique a s0 p s' hs0 hs' (by rw [← hful, hful'])
      rw [hp', ← hu.1]
  · rw [if_neg hp,
      alookup_append_right _ _ _ (Option.not_isSome_iff_eq_none.mp hp), alookup_cons]
    exact ⟨_, if_pos rfl, rfl⟩

theorem alookup_addObject (gd : GDict) (key : PyStr) (o : ℕ) (k : PyStr) :
    alookup (addObject gd key o) k
      = if k = key then
          (alookup gd k).map (fun i => { i with objects := insert o i.objects })
        else alookup gd k := by
  unfold addObject
  rw [alookup_aupd]

theorem alookup_addChild (gd : GDict) (p c : PyStr) (k : PyStr) :
    alookup (addChild gd p c) k
      = if k = p then
          (alookup gd k).map (fun i => { i with children := setAdd i.children c })
        else alookup gd k := by
  unfold addChild
  rw [alookup_aupd]

/-- The path-structured tag of the claim: the string "A\B". -/
def tagAB : PyStr := 'A' :: '\\' :: 'B' :: []

/-- The first prefix node of the tag "A\B": the string "A". -/
def nameA : PyStr := ['A']

/-- Processing the tag "A\B" for object `o` materializes the nodes "A"
and "A\B", adds `o` to the member set of both, and leaves "A" recorded
as the parent of "A\B". -/
theorem processTag_AB (o : ℕ) (st : BState) (hinv : GInv st.1) :
    ∃ iA iAB,
      alookup (processTag o st tagAB).1 nameA = some iA ∧ o ∈ iA.objects ∧
      alookup (processTag o st tagAB).1 tagAB = some iAB ∧
      o ∈ iAB.objects ∧ iAB.parent = some nameA := by
  have heq : (processTag o st tagAB).1
      = addObject
          (addChild
            (update_group (addObject (update_group st.1 nameA nameA none) nameA o)
              tagAB ['B'] (some nameA))
            nameA tagAB)
          tagAB o := rfl
  rw [heq]
  obtain ⟨i1, hi1⟩ := alookup_update_group_self st.1 nameA nameA none
  have hg3A : alookup (addObject (update_group st.1 nameA nameA none) nameA o) nameA
      = some { i1 with objects := insert o i1.objects } := by
    rw [alookup_addObject, if_pos rfl, hi1]
    rfl
  have hinv3 : GInv (addObject (update_group st.1 nameA nameA none) nameA o) :=
    GInv_addObject _ _ _
      (GInv_update_group st.1 nameA nameA none hinv (Or.inl ⟨rfl, by decide⟩))
  obtain ⟨i4, hi4, hpar4⟩ := alookup_update_group_parent _ tagAB ['B'] nameA ['B']
    hinv3 (by decide) rfl rfl
  obtain ⟨i4A, hi4A, hsubA, _⟩ := gdKeep_update_group _ tagAB ['B'] (some nameA)
    nameA _ hg3A
  have hg5AB : alookup (addChild (update_group
      (addObject (update_group st.1 nameA nameA none) nameA o)
      tagAB ['B'] (some nameA)) nameA tagAB) tagAB = some i4 := by
    rw [alookup_addChild, if_neg (by decide : ¬tagAB = nameA), hi4]
  have hg5A : alookup (addChild (update_group
      (addObject (update_group st.1 nameA nameA none) nameA o)
      tagAB ['B'] (some nameA)) nameA tagAB) nameA
      = some { i4A with children := setAdd i4A.children tagAB } := by
    rw [alookup_addChild, if_pos rfl, hi4A]
    rfl
  refine ⟨{ i4A with children := setAdd i4A.children tagAB },
    { i4 with objects := insert o i4.objects }, ?_, ?_, ?_, ?_, ?_⟩
  · rw [alookup_addObject, if_neg (by decide : ¬nameA = tagAB), hg5A]
  · exact hsubA (Finset.mem_insert_self o i1.objects)
  · rw [alookup_addObject, if_pos rfl, hg5AB]
    rfl
  · exact Finset.mem_insert_self o i4.objects
  · exact hpar4

/-- C4. The claim reads: for every entity carrying the path-structured
group tag "A\B", the built group dictionary contains both the node "A"
and the node "A\B", records "A" as the parent of "A\B", and includes
the entity in the member sets of both nodes. -/
theorem group_dict_prefix_nodes_membership
    (objs : List (ℕ × List PyStr)) (o : ℕ) (tags : List PyStr)
    (hmem : (o, tags) ∈ objs) (htag : tagAB ∈ tags) :
    ∃ iA iAB,
      alookup (build_universal_group_dict objs).1 nameA = some iA ∧
      o ∈ iA.objects ∧
      alookup (build_universal_group_dict objs).1 tagAB = some iAB ∧
      o ∈ iAB.objects ∧ iAB.parent = some nameA := by
  obtain ⟨pre, post, rfl⟩ := List.append_of_mem hmem
  obtain ⟨tpre, tpost, rfl⟩ := List.append_of_mem htag
  have hbd : (build_universal_group_dict (pre ++ (o, tpre ++ tagAB :: tpost) :: post)).1
      = ((pre ++ (o, tpre ++ tagAB :: tpost) :: post).foldl processObj ([], [])).1 := rfl
  rw [hbd, List.foldl_append, List.foldl_cons]
  set st0 := pre.foldl processObj (([], []) : BState) with hst0
  have hinv0 : GInv st0.1 := GInv_foldl_processObj pre _ GInv_nil
  have hobj : processObj st0 (o, tpre ++ tagAB :: tpost)
      = (tpre ++ tagAB :: tpost).foldl (processTag o) (st0.1, ogmInit st0.2 o) := by
    cases tpre <;> rfl
  rw [hobj, List.foldl_append, List.foldl_cons]
  set st1 := tpre.foldl (processTag o) (st0.1, ogmInit st0.2 o) with hst1
  have hinv1 : GInv st1.1 := GInv_foldl_processTag o tpre _ hinv0
  set st2 := processTag o st1 tagAB with hst2
  obtain ⟨iA, iAB, hA, hoA, hAB, hoAB, hpar⟩ := processTag_AB o st1 hinv1
  have hk := gdKeep_trans
    (gdKeep_foldl_processTag o tpost st2)
    (gdKeep_foldl_processObj post (tpost.foldl (processTag o) st2))
  obtain ⟨iA', hA', hsubA', _⟩ := hk nameA iA hA
  obtain ⟨iAB', hAB', hsubAB', hparp⟩ := hk tagAB iAB hAB
  exact ⟨iA', iAB', hA', hsubA' hoA, hAB', hsubAB' hoAB, hparp nameA hpar⟩

/-- C4 witness: one object carrying the single tag "A\B" lands in the
member sets of both "A" and "A\B", and "A\B" has parent "A". -/
theorem group_dict_prefix_nodes_membership_witness :
    ∃ iA iAB,
      alookup (build_universal_group_dict [(7, [tagAB])]).1 nameA = some iA ∧
      7 ∈ iA.objects ∧
      alookup (build_universal_group_dict [(7, [tagAB])]).1 tagAB = some iAB ∧
      7 ∈ iAB.objects ∧ iAB.parent = some nameA :=
  group_dict_prefix_nodes_membership [(7, [tagAB])] 7 [tagAB]
    (by decide) (by decide)

/-- A group tag whose name itself contains a comma: the string "A,B". -/
def tagAcommaB : PyStr := 'A' :: ',' :: 'B' :: []

/-- C6 counterexample. The claim reads: the inverse membership index
keys entities by the sorted comma-join of their prefix set, and two
entities share a key iff their prefix sets are equal.  The code joins
the set with commas without sorting and without escaping: an entity
tagged "A,B" and an entity tagged "A" and "B" have different prefix
sets yet collide on the single signature key "A,B"; and an entity
tagged "B" then "A" is keyed "B,A" (set-iteration order, modelled as
insertion order), not the sorted "A,B". -/
theorem signature_key_collision :
    (build_universal_group_dict [(1, [tagAcommaB]), (2, [['A'], ['B']])]).2.2
      = [(tagAcommaB, [1, 2])] ∧
    alookup (build_universal_group_dict
        [(1, [tagAcommaB]), (2, [['A'], ['B']])]).2.1 1 = some [tagAcommaB] ∧
    alookup (build_universal_group_dict
        [(1, [tagAcommaB]), (2, [['A'], ['B']])]).2.1 2 = some [['A'], ['B']] ∧
    ¬([tagAcommaB] : List PyStr) = [['A'], ['B']] ∧
    (build_universal_group_dict [(3, [['B'], ['A']])]).2.2
      = [('B' :: ',' :: 'A' :: [], [3])] := by
  exact ⟨rfl, rfl, rfl, by decide, rfl⟩

theorem fold1_pres_isSome :
    ∀ (l : OGM) (m : List (PyStr × List ℕ)) (key : PyStr),
      (alookup m key).isSome →
      (alookup (l.foldl (fun m kv => aset m (joinComma kv.2) []) m) key).isSome := by
  intro l
  induction l with
  | nil => intro m key h; exact h
  | cons kv rest ih =>
    intro m key h
    apply ih
    rw [alookup_aset]
    by_cases hk : key = joinComma kv.2
    · rw [if_pos hk]; rfl
    · rw [if_neg hk]; exact h

theorem fold2_pres_isSome :
    ∀ (l : OGM) (m : List (PyStr × List ℕ)) (key : PyStr),
      (alookup m key).isSome →
      (alookup (l.foldl
        (fun m kv => aupd m (joinComma kv.2) (fun s => s ++ [kv.1])) m) key).isSome := by
  intro l
  induction l with
  | nil => intro m key h; exact h
  | cons kv rest ih =>
    intro m key h
    apply ih
    rw [alookup_aupd]
    by_cases hk : key = joinComma kv.2
    · rw [if_pos hk]
      simpa using h
    · rw [if_neg hk]; exact h

theorem fold2_pres_mem :
    ∀ (l : OGM) (m : List (PyStr × List ℕ)) (key : PyStr) (x : ℕ) (cur : List ℕ),
      alookup m key = some cur → x ∈ cur →
      ∃ res, alookup (l.foldl
        (fun m kv => aupd m (joinComma kv.2) (fun s => s ++ [kv.1])) m) key
          = some res ∧ x ∈ res := by
  intro l
  induction l with
  | nil => intro m key x cur h hx; exact ⟨cur, h, hx⟩
  | cons kv rest ih =>
    intro m key x cur h hx
    by_cases hk : key = joinComma kv.2
    · refine ih _ key x (cur ++ [kv.1]) ?_ (List.mem_append_left _ hx)
      rw [alookup_aupd, if_pos hk, h]
      rfl
    · refine ih _ key x cur ?_ hx
      rw [alookup_aupd, if_neg hk]
      exact h

/-- C6 as amended. Each entity is grouped under the comma-join of its
group-path collection in set-iteration order (modelled as insertion
order), with no sorting and no escaping: for every entry of the object
group map, the built signature map binds the entity's unsorted
comma-joined signature to a list containing that entity.  Entities with
identical group lists therefore share a key, but as the counterexample
shows, distinct prefix sets can collide on a key and the key need not
be the sorted rendering. -/
theorem signature_key_insertion_order (ogm : OGM) (o : ℕ) (gs : List PyStr)
    (hmem : (o, gs) ∈ ogm) :
    ∃ l, alookup (buildGom ogm) (joinComma gs) = some l ∧ o ∈ l := by
  obtain ⟨pre, post, rfl⟩ := List.append_of_mem hmem
  simp only [buildGom]
  set g0 := (pre ++ (o, gs) :: post).foldl
    (fun m kv => aset m (joinComma kv.2) []) [] with hg0
  have h0 : (alookup g0 (joinComma gs)).isSome := by
    rw [hg0, List.foldl_append, List.foldl_cons]
    apply fold1_pres_isSome
    rw [alookup_aset, if_pos rfl]
    rfl
  rw [List.foldl_append, List.foldl_cons]
  obtain ⟨cur, hcur⟩ :=
    Option.isSome_iff_exists.mp (fold2_pres_isSome pre g0 (joinComma gs) h0)
  apply fold2_pres_mem post _ (joinComma gs) o (cur ++ [o])
  · rw [alookup_aupd, if_pos rfl, hcur]
    rfl
  · exact List.mem_append_right _ (List.mem_cons_self o [])

/-- C6 witness for the amended statement: a single entity tagged "A" is
grouped under the signature "A". -/
theorem signature_key_insertion_order_witness :
    ∃ l, alookup (buildGom [(5, [['A']])]) (joinComma [['A']]) = some l ∧ 5 ∈ l :=
  signature_key_insertion_order [(5, [['A']])] 5 [['A']] (by decide)
